import Mathlib

/-
Verification of the Live_chord chord-detection core (src/www/app.js).

Modelling conventions:
* Audio samples and chroma entries are exact rationals (ℚ); the JS code uses
  IEEE doubles, but every claim under study concerns values (0, 1, 0.05, 1/3, …)
  on which double arithmetic is exact, so ℚ is a faithful idealisation.
* `Math.sqrt` forces real numbers: cosine similarity scores live in ℝ.
  JS division 0/0 (both vectors all-zero never gives a nonzero dot product with
  a zero norm, so the only degenerate case is 0/0 = NaN) is modelled as `none`
  in `Option ℝ`; a NaN score compares false under `>`, which the detection fold
  reproduces by keeping the running best when the score is `none`.
* JS `%` is the truncated remainder (`Int.tmod`), and writing a JS array at a
  negative index creates a non-element property, leaving the array slot
  unset (`undefined` on read).  `shiftHPCP` therefore works on
  `Fin 12 → Option ℚ`, `none` standing for an unset slot / `undefined`.
* `performance.now()` timestamps are rationals.
-/

namespace LiveChord

/-- A 12-bin chroma (HPCP) vector, index = pitch class. -/
abbrev Chroma := Fin 12 → ℚ

/-- JS remainder `a % b` (truncated division remainder, sign of the dividend). -/
def jsRem (a b : ℤ) : ℤ := Int.tmod a b

/-- Writing `arr[idx] = x` on a JS array of length 12: an in-range index
updates the slot, any other index creates a non-element property and leaves
all 12 slots unchanged. -/
def jsArraySet (arr : Fin 12 → Option ℚ) (idx : ℤ) (x : Option ℚ) :
    Fin 12 → Option ℚ :=
  if h : 0 ≤ idx ∧ idx < 12 then
    Function.update arr ⟨idx.toNat, by omega⟩ x
  else arr

/-- A fully defined chroma vector viewed as a JS array without holes. -/
def pureChroma (v : Chroma) : Fin 12 → Option ℚ := fun i => some (v i)

/-- app.js `shiftHPCP` (lines 20-27): `shifted[(i + shift + len) % len] = hpcp[i]`
for `i = 0..11`, starting from `new Array(12)` (all holes). -/
def shiftHPCP (hpcp : Fin 12 → Option ℚ) (shift : ℤ) : Fin 12 → Option ℚ :=
  (List.finRange 12).foldl
    (fun shifted i => jsArraySet shifted (jsRem ((i : ℤ) + shift + 12) 12) (hpcp i))
    (fun _ => none)

/-- app.js `generateChordTemplate` (lines 30-36): start from 12 zeros and set
`template[(rootIndex + interval) % 12] = 1.0` for each interval. -/
def generateChordTemplate (rootIndex : ℕ) (intervals : List ℕ) : Chroma :=
  intervals.foldl
    (fun template interval =>
      Function.update template ⟨(rootIndex + interval) % 12, Nat.mod_lt _ (by norm_num)⟩ 1)
    (fun _ => 0)

/-- app.js note names (lines 40-43), split in the middle exactly as the JS
array literal is. -/
def noteNames : List String :=
  ["C", "C#", "D", "D#", "E", "F"] ++ ["F#", "G", "G#", "A", "A#", "B"]

/-- app.js chord qualities in object-literal insertion order (lines 44-52). -/
def chordTypes : List (String × List ℕ) :=
  [("maj", [0, 4, 7]), ("min", [0, 3, 7]), ("dim", [0, 3, 6]),
   ("aug", [0, 4, 8]), ("7", [0, 4, 7, 10])]

/-- app.js `generateChordTemplates` (lines 39-61).  JS `for...in` enumerates the
string keys of the templates object in insertion order (none of the labels is an
array index), so the library is modelled as an association list in insertion
order: outer loop over the 12 roots, inner loop over the 5 qualities. -/
def generateChordTemplates : List (String × Chroma) :=
  (List.range 12).foldl
    (fun templates i =>
      chordTypes.foldl
        (fun ts p => ts ++ [(noteNames.getD i "" ++ ":" ++ p.1, generateChordTemplate i p.2)])
        templates)
    []

/-- app.js line 110: the library built once at startup. -/
def chordTemplates : List (String × Chroma) := generateChordTemplates

/-- The dot product accumulated by the loop of `cosineSimilarity`
(also `normA`/`normB` when both arguments coincide). -/
def dotProd (a b : Chroma) : ℚ := ∑ i, a i * b i

/-- app.js `cosineSimilarity` (lines 64-72): `dot / (sqrt(normA) * sqrt(normB))`.
The denominator vanishes exactly when one of the (nonnegative) self dot
products vanishes, and then the numerator vanishes too, so JS produces
`0/0 = NaN`, modelled as `none`; otherwise the score is the real quotient. -/
noncomputable def cosineSimilarity (a b : Chroma) : Option ℝ :=
  if dotProd a a = 0 ∨ dotProd b b = 0 then none
  else some ((dotProd a b : ℝ) / (Real.sqrt (dotProd a a) * Real.sqrt (dotProd b b)))

/-- One iteration of the `for (const chord in chordTemplates)` loop in
app.js `detectChord` (lines 75-85).  `best = none` is the initial
`(null, -Infinity)` state; a NaN score (`none`) fails `score > bestScore`
and keeps the running best, any real score beats `-Infinity`. -/
noncomputable def detectStep (hpcpVector : Chroma) (best : Option (String × ℝ))
    (e : String × Chroma) : Option (String × ℝ) :=
  match cosineSimilarity hpcpVector e.2 with
  | none => best
  | some score =>
    match best with
    | none => some (e.1, score)
    | some (bestChord, bestScore) =>
      if bestScore < score then some (e.1, score) else some (bestChord, bestScore)

/-- app.js `detectChord` (lines 75-85): fold the comparison loop over the
library in iteration order and return the best label (`null` = `none`). -/
noncomputable def detectChord (hpcpVector : Chroma) (lib : List (String × Chroma)) :
    Option String :=
  (lib.foldl (detectStep hpcpVector) none).map Prod.fst

/-- app.js `detectNotes` (lines 88-100): pair every pitch class with its value
in index order, keep the ones with `value >= threshold`, and sort by value
descending.  JS `Array.prototype.sort` is stable (ES2019), modelled by the
stable `List.mergeSort` with the comparator `b.value <= a.value`. -/
def detectNotes (hpcpVector : Chroma) (threshold : ℚ) : List (String × ℚ) :=
  (((List.finRange 12).map (fun i => (noteNames.getD i "", hpcpVector i))).filter
      (fun n => threshold ≤ n.2)).mergeSort
    (fun a b => decide (b.2 ≤ a.2))

/-- app.js line 108. -/
def BUFFER_SIZE : ℕ := 8192

/-- app.js line 115 (milliseconds). -/
def SMOOTHING_INTERVAL : ℚ := 250

/-- The frame-accumulator step of the `onmessage` handler (lines 162-175):
push the chunk; if the buffered total reaches `BUFFER_SIZE`, concatenate in
arrival order, truncate to the first `BUFFER_SIZE` samples, clear the whole
accumulator and emit the frame, otherwise keep accumulating. -/
def pushChunk (sampleAccumulator : List (List ℚ)) (chunk : List ℚ) :
    List (List ℚ) × Option (List ℚ) :=
  let acc := sampleAccumulator ++ [chunk]
  let totalSamples := (acc.map List.length).sum
  if BUFFER_SIZE ≤ totalSamples then ([], some (acc.flatten.take BUFFER_SIZE))
  else (acc, none)

/-- One delivered chunk, threaded through the accumulator, also recording the
emitted frame (if any) at the end of an event log. -/
def pushStep (st : List (List ℚ) × List (List ℚ)) (chunk : List ℚ) :
    List (List ℚ) × List (List ℚ) :=
  let r := pushChunk st.1 chunk
  (r.1, st.2 ++ r.2.toList)

/-- Iterated `pushChunk` from an empty accumulator, collecting every emitted
frame in order; returns (final accumulator, emitted frames). -/
def pushAll (chunks : List (List ℚ)) : List (List ℚ) × List (List ℚ) :=
  chunks.foldl pushStep ([], [])

/-- The smoothing state of app.js lines 114-116. -/
structure SmoothState where
  hpcpAccumulation : List Chroma
  lastSmoothingTime : ℚ
  deriving DecidableEq

/-- The averaging expression of app.js lines 189-191: elementwise
`reduce`-sum of the accumulated vectors, then divide each bin by the count. -/
def meanHPCP (hpcpAccumulation : List Chroma) : Chroma :=
  fun i =>
    (hpcpAccumulation.foldl (fun acc curr => fun j => acc j + curr j) (fun _ => 0)) i /
      (hpcpAccumulation.length : ℚ)

/-- The smoothing-aggregator step of the handler (lines 185-197): push the
chroma vector, then, if at least `SMOOTHING_INTERVAL` ms have elapsed, emit the
mean of everything accumulated, clear the accumulation and restart the window
at `now`. -/
def acceptAndMaybeFlush (st : SmoothState) (hpcp : Chroma) (now : ℚ) :
    SmoothState × Option Chroma :=
  let acc := st.hpcpAccumulation ++ [hpcp]
  if SMOOTHING_INTERVAL ≤ now - st.lastSmoothingTime then
    (⟨[], now⟩, some (meanHPCP acc))
  else (⟨acc, st.lastSmoothingTime⟩, none)

/-- app.js line 178: the frame is dropped when `rms < 0.05`. -/
def loudnessGatePasses (rms : ℚ) : Bool := !(rms < 0.05)

/-- The mutable pipeline state of app.js (lines 114-123).  `lastChordResult`
is a JS string-or-null (`some "None"` initially, then whatever `detectChord`
returned); `lastNotesResult` is modelled as the ranked note list whose
formatted join the JS stores. -/
structure PipelineState where
  sampleAccumulator : List (List ℚ)
  hpcpAccumulation : List Chroma
  lastSmoothingTime : ℚ
  lastChordResult : Option String
  lastNotesResult : List (String × ℚ)
  deriving DecidableEq

/-- The whole `audioWorkletNode.port.onmessage` handler (lines 162-206).
The external feature extractor is an oracle: `ext_rms` models
`essentiaExtractor.RMS(...)` and `ext_hpcp` models
`essentiaExtractor.hpcpExtractor(...)`.  The `-3`-semitone shift never leaves
a hole (proved below), so reading the shifted array is total (`getD 0`). -/
noncomputable def onMessage (ext_rms : List ℚ → ℚ) (ext_hpcp : List ℚ → Chroma)
    (st : PipelineState) (chunk : List ℚ) (now : ℚ) : PipelineState :=
  let acc := st.sampleAccumulator ++ [chunk]
  let totalSamples := (acc.map List.length).sum
  if BUFFER_SIZE ≤ totalSamples then
    let buffer := acc.flatten.take BUFFER_SIZE
    let st1 := { st with sampleAccumulator := ([] : List (List ℚ)) }
    if ext_rms buffer < 0.05 then st1
    else
      let hpcp : Chroma := fun i => (shiftHPCP (pureChroma (ext_hpcp buffer)) (-3) i).getD 0
      let hAcc := st1.hpcpAccumulation ++ [hpcp]
      if SMOOTHING_INTERVAL ≤ now - st1.lastSmoothingTime then
        let avgHPCP := meanHPCP hAcc
        { st1 with
          hpcpAccumulation := ([] : List Chroma)
          lastSmoothingTime := now
          lastChordResult := detectChord avgHPCP chordTemplates
          lastNotesResult := detectNotes avgHPCP 0.1 }
      else { st1 with hpcpAccumulation := hAcc }
  else { st with sampleAccumulator := acc }

/-- app.js `stopAudioWorkletStream` (lines 216-236), restricted to the modelled
state: the audio nodes are torn down and both accumulators cleared, while
`lastChordResult` / `lastNotesResult` are read (for the final display) but
never reassigned. -/
def stopAudioWorkletStream (st : PipelineState) : PipelineState :=
  { st with
    sampleAccumulator := ([] : List (List ℚ))
    hpcpAccumulation := ([] : List Chroma) }

/-- The all-zero chroma vector. -/
def zeroChroma : Chroma := fun _ => 0

/-! ### General lemmas about the embedded operations -/

lemma dotProd_self_nonneg (a : Chroma) : 0 ≤ dotProd a a :=
  Finset.sum_nonneg fun i _ => mul_self_nonneg (a i)

lemma dotProd_zero_self : dotProd zeroChroma zeroChroma = 0 := by
  with_unfolding_all decide

lemma cosineSimilarity_zero_left (b : Chroma) :
    cosineSimilarity zeroChroma b = none := by
  simp [cosineSimilarity, dotProd_zero_self]

lemma cosineSimilarity_zero_right (a : Chroma) :
    cosineSimilarity a zeroChroma = none := by
  simp [cosineSimilarity, dotProd_zero_self]

lemma foldl_detectStep_none (v : Chroma) :
    ∀ L : List (String × Chroma), (∀ e ∈ L, cosineSimilarity v e.2 = none) →
      L.foldl (detectStep v) none = none := by
  intro L
  induction L with
  | nil => intro _; rfl
  | cons e l ih =>
    intro h
    have he : detectStep v none e = none := by
      simp [detectStep, h e (List.mem_cons_self e l)]
    simpa [List.foldl_cons, he] using ih fun x hx => h x (List.mem_cons_of_mem e hx)

/-! ### Claim theorems -/

/-- Claim C1: on an all-zero chroma vector, `cosineSimilarity` always returns the
same defined sentinel (the JS NaN value, modelled `none`), whichever side the
zero vector is on, and `detectChord` is a total function that returns no label
at all (`null`) instead of silently picking some chord from the library. -/
theorem claim_C1_zero_vector_sentinel :
    (∀ b : Chroma, cosineSimilarity zeroChroma b = none) ∧
    (∀ a : Chroma, cosineSimilarity a zeroChroma = none) ∧
    detectChord zeroChroma chordTemplates = none := by
  refine ⟨cosineSimilarity_zero_left, cosineSimilarity_zero_right, ?_⟩
  unfold detectChord
  rw [foldl_detectStep_none zeroChroma chordTemplates
    fun e _ => cosineSimilarity_zero_left e.2]
  rfl

/-- Claim C10: for the all-zero input vector every cosine similarity against the
library is the undefined 0/0 value (NaN, modelled `none`), so the strict
`score > bestScore` comparison never fires, the fold stays at its initial
`(null, -Infinity)` state, and `detectChord` returns `null` rather than any
library label. -/
theorem claim_C10_zero_vector_null_chord :
    (∀ e ∈ chordTemplates, cosineSimilarity zeroChroma e.2 = none) ∧
    chordTemplates.foldl (detectStep zeroChroma) none = none ∧
    detectChord zeroChroma chordTemplates = none := by
  have hall : ∀ e ∈ chordTemplates, cosineSimilarity zeroChroma e.2 = none :=
    fun e _ => cosineSimilarity_zero_left e.2
  have hfold := foldl_detectStep_none zeroChroma chordTemplates hall
  exact ⟨hall, hfold, by unfold detectChord; rw [hfold]; rfl⟩

set_option maxHeartbeats 3200000 in
/-- Claim C7: the library built from 12 roots and 5 qualities has exactly 60
entries; every (root, quality) pair contributes its labelled template; each
template has value 1 exactly at the pitch classes `(root + i) % 12` for `i` in
the quality's interval list and 0 elsewhere, hence exactly
`intervals.length` ones; and the template for root 0 with intervals [0, 4, 7]
is exactly [1,0,0,0,1,0,0,1,0,0,0,0]. -/
theorem claim_C7_template_library :
    chordTemplates.length = 60 ∧
    (∀ r : Fin 12, ∀ p ∈ chordTypes,
      (noteNames.getD r "" ++ ":" ++ p.1, generateChordTemplate r p.2) ∈ chordTemplates ∧
      (∀ j : Fin 12,
        (generateChordTemplate r p.2 j = 1 ↔ ∃ i ∈ p.2, (r + i) % 12 = (j : ℕ)) ∧
        (generateChordTemplate r p.2 j = 1 ∨ generateChordTemplate r p.2 j = 0)) ∧
      ((List.finRange 12).filter (fun j => generateChordTemplate r p.2 j = 1)).length
        = p.2.length) ∧
    (∀ e ∈ chordTemplates, ∃ r : Fin 12, ∃ p ∈ chordTypes,
      e = (noteNames.getD r "" ++ ":" ++ p.1, generateChordTemplate r p.2)) ∧
    generateChordTemplate 0 [0, 4, 7] = ![1, 0, 0, 0, 1, 0, 0, 1, 0, 0, 0, 0] := by
  with_unfolding_all decide

lemma foldl_addChroma (acc : List Chroma) :
    ∀ (f : Chroma) (i : Fin 12),
      (acc.foldl (fun a curr => fun j => a j + curr j) f) i
        = f i + (acc.map (fun v => v i)).sum := by
  induction acc with
  | nil => intro f i; simp
  | cons c l ih =>
    intro f i
    simp only [List.foldl_cons, List.map_cons, List.sum_cons]
    rw [ih]
    ring

/-- Claim C4: the smoothing aggregator flushes only when at least
`SMOOTHING_INTERVAL` (250 ms) has elapsed since the window started and at least
one chroma vector is accumulated; a flush emits the element-wise arithmetic
mean of everything accumulated, clears the accumulation and restarts the window
at the flush time; before the window elapses nothing is emitted.  In particular
accumulating the three basis vectors at bins 0, 1, 2 and flushing yields 1/3 at
bins 0, 1, 2 and 0 elsewhere. -/
theorem claim_C4_smoothing_aggregator :
    (∀ (st : SmoothState) (v : Chroma) (now : ℚ) (stOut : SmoothState) (m : Chroma),
      acceptAndMaybeFlush st v now = (stOut, some m) →
      SMOOTHING_INTERVAL ≤ now - st.lastSmoothingTime ∧
      st.hpcpAccumulation ++ [v] ≠ [] ∧
      m = meanHPCP (st.hpcpAccumulation ++ [v]) ∧
      stOut = ⟨[], now⟩) ∧
    (∀ (st : SmoothState) (v : Chroma) (now : ℚ),
      SMOOTHING_INTERVAL ≤ now - st.lastSmoothingTime →
      acceptAndMaybeFlush st v now
        = (⟨[], now⟩, some (meanHPCP (st.hpcpAccumulation ++ [v])))) ∧
    (∀ (st : SmoothState) (v : Chroma) (now : ℚ),
      now - st.lastSmoothingTime < SMOOTHING_INTERVAL →
      acceptAndMaybeFlush st v now
        = (⟨st.hpcpAccumulation ++ [v], st.lastSmoothingTime⟩, none)) ∧
    (∀ (acc : List Chroma) (i : Fin 12),
      meanHPCP acc i = (acc.map (fun v => v i)).sum / (acc.length : ℚ)) ∧
    (acceptAndMaybeFlush ⟨[], 0⟩ ![1, 0, 0, 0, 0, 0, 0, 0, 0, 0, 0, 0] 100
        = (⟨[![1, 0, 0, 0, 0, 0, 0, 0, 0, 0, 0, 0]], 0⟩, none) ∧
      acceptAndMaybeFlush ⟨[![1, 0, 0, 0, 0, 0, 0, 0, 0, 0, 0, 0]], 0⟩
          ![0, 1, 0, 0, 0, 0, 0, 0, 0, 0, 0, 0] 200
        = (⟨[![1, 0, 0, 0, 0, 0, 0, 0, 0, 0, 0, 0],
             ![0, 1, 0, 0, 0, 0, 0, 0, 0, 0, 0, 0]], 0⟩, none) ∧
      acceptAndMaybeFlush ⟨[![1, 0, 0, 0, 0, 0, 0, 0, 0, 0, 0, 0],
             ![0, 1, 0, 0, 0, 0, 0, 0, 0, 0, 0, 0]], 0⟩
          ![0, 0, 1, 0, 0, 0, 0, 0, 0, 0, 0, 0] 250
        = (⟨[], 250⟩,
           some (meanHPCP [![1, 0, 0, 0, 0, 0, 0, 0, 0, 0, 0, 0],
             ![0, 1, 0, 0, 0, 0, 0, 0, 0, 0, 0, 0],
             ![0, 0, 1, 0, 0, 0, 0, 0, 0, 0, 0, 0]])) ∧
      meanHPCP [![1, 0, 0, 0, 0, 0, 0, 0, 0, 0, 0, 0],
             ![0, 1, 0, 0, 0, 0, 0, 0, 0, 0, 0, 0],
             ![0, 0, 1, 0, 0, 0, 0, 0, 0, 0, 0, 0]]
        = (fun i : Fin 12 => if (i : ℕ) < 3 then (1 : ℚ) / 3 else 0)) := by
  refine ⟨?_, ?_, ?_, ?_, ?_⟩
  · intro st v now stOut m h
    by_cases hT : SMOOTHING_INTERVAL ≤ now - st.lastSmoothingTime
    · simp only [acceptAndMaybeFlush, if_pos hT, Prod.mk.injEq, Option.some.injEq] at h
      exact ⟨hT, by simp, h.2.symm, h.1.symm⟩
    · simp only [acceptAndMaybeFlush, if_neg hT, Prod.mk.injEq] at h
      exact absurd h.2 (by simp)
  · intro st v now hT
    simp only [acceptAndMaybeFlush, if_pos hT]
  · intro st v now hT
    simp only [acceptAndMaybeFlush, if_neg (not_le.mpr hT)]
  · intro acc i
    simp only [meanHPCP, foldl_addChroma]
    simp
  · refine ⟨?_, ?_, ?_, ?_⟩ <;> with_unfolding_all decide

/-- Claim C6: the loudness gate accepts a frame exactly when its RMS is at
least 0.05 (the boundary is inclusive): RMS 0.049 is rejected and RMS 0.05
accepted; a gated frame changes nothing except that the just-consumed sample
accumulator is cleared — no smoothing contribution, no result update. -/
theorem claim_C6_loudness_gate_boundary :
    (∀ rms : ℚ, loudnessGatePasses rms = true ↔ 0.05 ≤ rms) ∧
    loudnessGatePasses 0.049 = false ∧
    loudnessGatePasses 0.05 = true ∧
    (∀ (ext_rms : List ℚ → ℚ) (ext_hpcp : List ℚ → Chroma) (st : PipelineState)
        (chunk : List ℚ) (now : ℚ),
      BUFFER_SIZE ≤ ((st.sampleAccumulator ++ [chunk]).map List.length).sum →
      ext_rms ((st.sampleAccumulator ++ [chunk]).flatten.take BUFFER_SIZE) < 0.05 →
      onMessage ext_rms ext_hpcp st chunk now = { st with sampleAccumulator := [] }) := by
  refine ⟨?_, ?_, ?_, ?_⟩
  · intro rms
    simp [loudnessGatePasses, not_lt]
  · with_unfolding_all decide
  · with_unfolding_all decide
  · intro ext_rms ext_hpcp st chunk now h1 h2
    simp only [onMessage, if_pos h1, if_pos h2]

/-- Claim C9: the stored detection result (`lastChordResult`,
`lastNotesResult`) changes only on a smoothing-window flush: a chunk that
completes no frame leaves it unchanged, a frame rejected by the loudness gate
leaves it unchanged, a frame accepted while the smoothing window has not yet
elapsed leaves it unchanged, and `stopAudioWorkletStream` never clears it (only
the two accumulators are reset). -/
theorem claim_C9_result_persistence :
    (∀ (ext_rms : List ℚ → ℚ) (ext_hpcp : List ℚ → Chroma) (st : PipelineState)
        (chunk : List ℚ) (now : ℚ),
      ((st.sampleAccumulator ++ [chunk]).map List.length).sum < BUFFER_SIZE →
      (onMessage ext_rms ext_hpcp st chunk now).lastChordResult = st.lastChordResult ∧
      (onMessage ext_rms ext_hpcp st chunk now).lastNotesResult = st.lastNotesResult) ∧
    (∀ (ext_rms : List ℚ → ℚ) (ext_hpcp : List ℚ → Chroma) (st : PipelineState)
        (chunk : List ℚ) (now : ℚ),
      ext_rms ((st.sampleAccumulator ++ [chunk]).flatten.take BUFFER_SIZE) < 0.05 →
      (onMessage ext_rms ext_hpcp st chunk now).lastChordResult = st.lastChordResult ∧
      (onMessage ext_rms ext_hpcp st chunk now).lastNotesResult = st.lastNotesResult) ∧
    (∀ (ext_rms : List ℚ → ℚ) (ext_hpcp : List ℚ → Chroma) (st : PipelineState)
        (chunk : List ℚ) (now : ℚ),
      now - st.lastSmoothingTime < SMOOTHING_INTERVAL →
      (onMessage ext_rms ext_hpcp st chunk now).lastChordResult = st.lastChordResult ∧
      (onMessage ext_rms ext_hpcp st chunk now).lastNotesResult = st.lastNotesResult) ∧
    (∀ st : PipelineState,
      (stopAudioWorkletStream st).lastChordResult = st.lastChordResult ∧
      (stopAudioWorkletStream st).lastNotesResult = st.lastNotesResult ∧
      (stopAudioWorkletStream st).sampleAccumulator = [] ∧
      (stopAudioWorkletStream st).hpcpAccumulation = []) := by
  refine ⟨?_, ?_, ?_, ?_⟩
  · intro ext_rms ext_hpcp st chunk now h
    simp only [onMessage, if_neg (not_le.mpr h)]
    trivial
  · intro ext_rms ext_hpcp st chunk now h
    by_cases h1 : BUFFER_SIZE ≤ ((st.sampleAccumulator ++ [chunk]).map List.length).sum
    · simp only [onMessage, if_pos h1, if_pos h]
      trivial
    · simp only [onMessage, if_neg h1]
      trivial
  · intro ext_rms ext_hpcp st chunk now h
    by_cases h1 : BUFFER_SIZE ≤ ((st.sampleAccumulator ++ [chunk]).map List.length).sum
    · by_cases h2 : ext_rms ((st.sampleAccumulator ++ [chunk]).flatten.take BUFFER_SIZE) < 0.05
      · simp only [onMessage, if_pos h1, if_pos h2]
        trivial
      · simp only [onMessage, if_pos h1, if_neg h2, if_neg (not_le.mpr h)]
        trivial
    · simp only [onMessage, if_neg h1]
      trivial
  · intro st
    exact ⟨rfl, rfl, rfl, rfl⟩

lemma pushStep_no_emit (a e : List (List ℚ)) (c : List ℚ)
    (h : ¬ BUFFER_SIZE ≤ ((a ++ [c]).map List.length).sum) :
    pushStep (a, e) c = (a ++ [c], e) := by
  have h' : ¬ BUFFER_SIZE ≤ (a.map List.length).sum + c.length := by simpa using h
  simp [pushStep, pushChunk, h']

lemma foldl_pushStep_no_emit :
    ∀ (l a e : List (List ℚ)),
      (a.map List.length).sum + (l.map List.length).sum < BUFFER_SIZE →
      l.foldl pushStep (a, e) = (a ++ l, e) := by
  intro l
  induction l with
  | nil => intro a e _; simp
  | cons c t ih =>
    intro a e h
    have h' : (a.map List.length).sum + c.length + (t.map List.length).sum < BUFFER_SIZE := by
      simp only [List.map_cons, List.sum_cons] at h
      omega
    have hni : ¬ BUFFER_SIZE ≤ ((a ++ [c]).map List.length).sum := by
      simp only [List.map_append, List.sum_append, List.map_cons, List.map_nil,
        List.sum_cons, List.sum_nil]
      omega
    rw [List.foldl_cons, pushStep_no_emit a e c hni,
      ih (a ++ [c]) e (by
        simp only [List.map_append, List.sum_append, List.map_cons, List.map_nil,
          List.sum_cons, List.sum_nil]
        omega)]
    simp

lemma sum_map_length_of_const {l : List (List ℚ)} (h : ∀ c ∈ l, c.length = 100) :
    (l.map List.length).sum = 100 * l.length := by
  induction l with
  | nil => simp
  | cons c t ih =>
    simp only [List.map_cons, List.sum_cons, List.length_cons,
      h c (List.mem_cons_self c t), ih fun x hx => h x (List.mem_cons_of_mem c hx)]
    ring

/-- Claim C3: pushing 82 chunks of 100 samples each yields exactly one emitted
frame, on the 82nd push (the first 81 pushes emit nothing and leave all 81
chunks buffered); the frame is the concatenation truncated to exactly
BUFFER_SIZE = 8192 of the 8200 concatenated samples, the 8 excess samples are
discarded rather than carried over, and the accumulator is empty immediately
after the emission. -/
theorem claim_C3_frame_accumulator (chunks : List (List ℚ))
    (hlen : chunks.length = 82) (hc : ∀ c ∈ chunks, c.length = 100) :
    pushAll chunks = ([], [chunks.flatten.take BUFFER_SIZE]) ∧
    (chunks.flatten.take BUFFER_SIZE).length = 8192 ∧
    chunks.flatten.length = 8200 ∧
    pushAll (chunks.take 81) = (chunks.take 81, []) := by
  have hT81c : ∀ c ∈ chunks.take 81, c.length = 100 :=
    fun c hcm => hc c (List.take_subset 81 chunks hcm)
  have hT81len : (chunks.take 81).length = 81 := by
    rw [List.length_take, hlen]
    decide
  have hsumT81 : ((chunks.take 81).map List.length).sum = 8100 := by
    rw [sum_map_length_of_const hT81c, hT81len]
  obtain ⟨d, hd⟩ : ∃ d, chunks.drop 81 = [d] :=
    List.length_eq_one.mp (by rw [List.length_drop, hlen])
  have hdlen : d.length = 100 :=
    hc d (List.drop_subset 81 chunks (hd ▸ List.mem_singleton_self d))
  have hsplit : chunks = chunks.take 81 ++ [d] := by
    rw [← hd, List.take_append_drop]
  have hfront : (chunks.take 81).foldl pushStep ([], []) = (chunks.take 81, []) := by
    rw [foldl_pushStep_no_emit (chunks.take 81) [] [] (by
      simp only [List.map_nil, List.sum_nil, hsumT81, BUFFER_SIZE]
      omega)]
    simp
  have hflatlen : chunks.flatten.length = 8200 := by
    rw [List.length_flatten, sum_map_length_of_const hc, hlen]
  refine ⟨?_, ?_, hflatlen, ?_⟩
  · have hcond : BUFFER_SIZE ≤ (((chunks.take 81 ++ [d]).map List.length).sum) := by
      simp only [List.map_append, List.sum_append, List.map_cons, List.map_nil,
        List.sum_cons, List.sum_nil, hsumT81, hdlen, BUFFER_SIZE]
      omega
    conv_lhs => rw [pushAll, hsplit]
    rw [List.foldl_append, hfront, List.foldl_cons, List.foldl_nil,
      pushStep]
    simp only [pushChunk, if_pos hcond]
    rw [← hsplit]
    simp
  · rw [List.length_take, hflatlen]
    decide
  · rw [pushAll, hfront]

/-- Witness for claim C3 at a concrete input: 82 chunks of 100 zero samples. -/
theorem claim_C3_witness :
    (List.replicate 82 (List.replicate 100 (0 : ℚ))).length = 82 ∧
    (∀ c ∈ List.replicate 82 (List.replicate 100 (0 : ℚ)), c.length = 100) ∧
    pushAll (List.replicate 82 (List.replicate 100 (0 : ℚ)))
      = ([], [(List.replicate 82 (List.replicate 100 (0 : ℚ))).flatten.take BUFFER_SIZE]) :=
  ⟨by simp, fun c hcm => by rw [List.eq_of_mem_replicate hcm]; simp,
    (claim_C3_frame_accumulator (List.replicate 82 (List.replicate 100 (0 : ℚ)))
      (by simp)
      (fun c hcm => by rw [List.eq_of_mem_replicate hcm]; simp)).1⟩

lemma noteCmp_trans (a b c : String × ℚ)
    (hab : decide (b.2 ≤ a.2) = true) (hbc : decide (c.2 ≤ b.2) = true) :
    decide (c.2 ≤ a.2) = true := by
  simp only [decide_eq_true_eq] at hab hbc ⊢
  exact le_trans hbc hab

lemma noteCmp_total (a b : String × ℚ) :
    (decide (b.2 ≤ a.2) || decide (a.2 ≤ b.2)) = true := by
  simpa using le_total b.2 a.2

/-- Claim C8: `detectNotes` returns exactly the pitch classes whose chroma
value is at least the threshold; the output is sorted by value descending, and
equal-valued entries keep their original pitch-class-index order (the sort is
stable); in particular on the C-major template with threshold 0.1 the result is
exactly C, E, G, each with value 1, in index order. -/
theorem claim_C8_dominant_notes :
    (∀ (v : Chroma) (th : ℚ) (p : String × ℚ),
      p ∈ detectNotes v th ↔
        p ∈ (List.finRange 12).map (fun i => (noteNames.getD i "", v i)) ∧ th ≤ p.2) ∧
    (∀ (v : Chroma) (th : ℚ),
      List.Pairwise (fun a b : String × ℚ => b.2 ≤ a.2) (detectNotes v th)) ∧
    (∀ (v : Chroma) (th : ℚ) (x y : String × ℚ), x.2 = y.2 →
      [x, y].Sublist
        (((List.finRange 12).map (fun i => (noteNames.getD i "", v i))).filter
          (fun n => decide (th ≤ n.2))) →
      [x, y].Sublist (detectNotes v th)) ∧
    detectNotes (generateChordTemplate 0 [0, 4, 7]) 0.1 = [("C", 1), ("E", 1), ("G", 1)] := by
  refine ⟨?_, ?_, ?_, ?_⟩
  · intro v th p
    simp only [detectNotes, List.mem_mergeSort, List.mem_filter, decide_eq_true_eq]
  · intro v th
    exact (List.sorted_mergeSort noteCmp_trans noteCmp_total _).imp
      fun h => of_decide_eq_true h
  · intro v th x y hxy hsub
    exact List.sublist_mergeSort noteCmp_trans noteCmp_total
      (by
        rw [List.pairwise_cons]
        refine ⟨?_, by simp⟩
        intro a ha
        rw [List.mem_singleton] at ha
        subst ha
        simpa using le_of_eq hxy.symm)
      hsub
  · with_unfolding_all decide

/-- Claim C2 counterexample: at shift `s = -13` the JS remainder is negative
for input index 0, the write lands outside the array and slot 11 of the rotated
array stays `undefined`, so rotating the all-zero vector by -13 and back by 13
does not return the original vector. -/
theorem claim_C2_counterexample :
    ¬ (shiftHPCP (shiftHPCP (pureChroma zeroChroma) (-13)) (13 : ℤ)
        = pureChroma zeroChroma) := by
  with_unfolding_all decide

/-- Claim C2 (amended): rotating by `s` semitones and back by `-s` is the
identity on fully defined 12-vectors for every integer `s` with
`-12 ≤ s ≤ 12` — the range in which the code's single `+ 12` keeps every
JS remainder `(i + shift + 12) % 12` non-negative on both rotations.
(Outside that range the code writes past the array, see the counterexample.) -/
theorem claim_C2_rotation_roundtrip (v : Chroma) (s : ℤ)
    (h1 : -12 ≤ s) (h2 : s ≤ 12) :
    shiftHPCP (shiftHPCP (pureChroma v) s) (-s) = pureChroma v := by
  interval_cases s <;>
    · funext j
      fin_cases j <;> rfl

/-- Witness for the amended claim C2 at the pipeline's own shift `s = -3`. -/
theorem claim_C2_witness :
    ((-12 : ℤ) ≤ -3 ∧ (-3 : ℤ) ≤ 12) ∧
    shiftHPCP (shiftHPCP (pureChroma zeroChroma) (-3)) (-(-3)) = pureChroma zeroChroma :=
  ⟨⟨by decide, by decide⟩,
    claim_C2_rotation_roundtrip zeroChroma (-3) (by decide) (by decide)⟩

lemma dotProd_cauchy (a b : Chroma) :
    dotProd a b ^ 2 ≤ dotProd a a * dotProd b b := by
  have h := Finset.sum_mul_sq_le_sq_mul_sq Finset.univ a b
  simpa [dotProd, pow_two] using h

lemma cosineSimilarity_defined (a b : Chroma)
    (ha : dotProd a a ≠ 0) (hb : dotProd b b ≠ 0) :
    cosineSimilarity a b
      = some ((dotProd a b : ℝ) / (Real.sqrt (dotProd a a) * Real.sqrt (dotProd b b))) := by
  unfold cosineSimilarity
  rw [if_neg]
  push_neg
  exact ⟨ha, hb⟩

lemma cosineSimilarity_le_one (a b : Chroma) (s : ℝ)
    (h : cosineSimilarity a b = some s) : s ≤ 1 := by
  unfold cosineSimilarity at h
  by_cases hg : dotProd a a = 0 ∨ dotProd b b = 0
  · rw [if_pos hg] at h
    exact absurd h (by simp)
  · rw [if_neg hg] at h
    push_neg at hg
    obtain ⟨ha, hb⟩ := hg
    have haR : (0 : ℝ) < (dotProd a a : ℝ) := by
      exact_mod_cast lt_of_le_of_ne (dotProd_self_nonneg a) (Ne.symm ha)
    have hbR : (0 : ℝ) < (dotProd b b : ℝ) := by
      exact_mod_cast lt_of_le_of_ne (dotProd_self_nonneg b) (Ne.symm hb)
    have hden : 0 < Real.sqrt (dotProd a a) * Real.sqrt (dotProd b b) :=
      mul_pos (Real.sqrt_pos.mpr haR) (Real.sqrt_pos.mpr hbR)
    have hnum : (dotProd a b : ℝ) ≤ Real.sqrt (dotProd a a) * Real.sqrt (dotProd b b) := by
      calc (dotProd a b : ℝ) ≤ |(dotProd a b : ℝ)| := le_abs_self _
        _ = Real.sqrt ((dotProd a b : ℝ) ^ 2) := (Real.sqrt_sq_eq_abs _).symm
        _ ≤ Real.sqrt ((dotProd a a : ℝ) * (dotProd b b : ℝ)) :=
            Real.sqrt_le_sqrt (by exact_mod_cast dotProd_cauchy a b)
        _ = Real.sqrt (dotProd a a) * Real.sqrt (dotProd b b) :=
            Real.sqrt_mul (le_of_lt haR) _
    rw [← Option.some.inj h]
    exact (div_le_one hden).mpr hnum

lemma cosineSimilarity_self (a : Chroma) (ha : dotProd a a ≠ 0) :
    cosineSimilarity a a = some 1 := by
  rw [cosineSimilarity_defined a a ha ha]
  have haR : (0 : ℝ) ≤ (dotProd a a : ℝ) := by exact_mod_cast dotProd_self_nonneg a
  rw [Real.mul_self_sqrt haR]
  congr 1
  exact div_self (by exact_mod_cast ha)

lemma foldl_detectStep_keep (v : Chroma) :
    ∀ (L : List (String × Chroma)) (c : String) (bs : ℝ), 1 ≤ bs →
      L.foldl (detectStep v) (some (c, bs)) = some (c, bs) := by
  intro L
  induction L with
  | nil => intro c bs _; rfl
  | cons e l ih =>
    intro c bs hbs
    have hstep : detectStep v (some (c, bs)) e = some (c, bs) := by
      unfold detectStep
      cases hcos : cosineSimilarity v e.2 with
      | none => rfl
      | some s =>
        have hns : ¬ bs < s :=
          not_lt.mpr (le_trans (cosineSimilarity_le_one v e.2 s hcos) hbs)
        simp [hns]
    rw [List.foldl_cons, hstep]
    exact ih c bs hbs

lemma foldl_detectStep_first_max (v : Chroma) :
    ∀ (L : List (String × Chroma)) (bc : String) (bs : ℝ),
      (∀ e ∈ L, cosineSimilarity v e.2 ≠ none) →
      ∃ res : String × ℝ,
        L.foldl (detectStep v) (some (bc, bs)) = some res ∧
        ((res = (bc, bs) ∧
            ∀ e ∈ L, ∀ t : ℝ, cosineSimilarity v e.2 = some t → t ≤ bs) ∨
         (bs < res.2 ∧ ∃ k : Fin L.length,
            res.1 = (L.get k).1 ∧
            cosineSimilarity v (L.get k).2 = some res.2 ∧
            (∀ j : Fin L.length, ∀ t : ℝ,
              cosineSimilarity v (L.get j).2 = some t → t ≤ res.2) ∧
            (∀ j : Fin L.length, (j : ℕ) < (k : ℕ) → ∀ t : ℝ,
              cosineSimilarity v (L.get j).2 = some t → t < res.2))) := by
  intro L
  induction L with
  | nil =>
    intro bc bs _
    exact ⟨(bc, bs), rfl, Or.inl ⟨rfl, by simp⟩⟩
  | cons e l ih =>
    intro bc bs hdef
    obtain ⟨s0, hs0⟩ : ∃ s0, cosineSimilarity v e.2 = some s0 :=
      Option.ne_none_iff_exists'.mp (hdef e (List.mem_cons_self e l))
    have hdef' : ∀ x ∈ l, cosineSimilarity v x.2 ≠ none :=
      fun x hx => hdef x (List.mem_cons_of_mem e hx)
    by_cases hlt : bs < s0
    · have hstep : detectStep v (some (bc, bs)) e = some (e.1, s0) := by
        unfold detectStep
        rw [hs0]
        simp [hlt]
      obtain ⟨res, hfold, hcases⟩ := ih e.1 s0 hdef'
      refine ⟨res, by rw [List.foldl_cons, hstep]; exact hfold, Or.inr ?_⟩
      rcases hcases with ⟨hres, hall⟩ | ⟨hlt2, k, hk1, hk2, hk3, hk4⟩
      · subst hres
        refine ⟨hlt, ⟨0, by simp⟩, rfl, hs0, ?_, ?_⟩
        · intro j
          refine Fin.cases ?_ ?_ j
          · intro t ht
            rw [List.get_cons_zero] at ht
            rw [hs0] at ht
            exact le_of_eq (Option.some.inj ht).symm
          · intro j' t ht
            rw [List.get_cons_succ'] at ht
            exact hall (l.get j') (List.get_mem l j' j'.isLt) t ht
        · intro j hj t _
          exact absurd hj (by simp)
      · refine ⟨lt_trans hlt hlt2, k.succ, ?_, ?_, ?_, ?_⟩
        · rw [List.get_cons_succ']
          exact hk1
        · rw [List.get_cons_succ']
          exact hk2
        · intro j
          refine Fin.cases ?_ ?_ j
          · intro t ht
            rw [List.get_cons_zero, hs0] at ht
            rw [← Option.some.inj ht]
            exact le_of_lt hlt2
          · intro j' t ht
            rw [List.get_cons_succ'] at ht
            exact hk3 j' t ht
        · intro j
          refine Fin.cases ?_ ?_ j
          · intro _ t ht
            rw [List.get_cons_zero, hs0] at ht
            rw [← Option.some.inj ht]
            exact hlt2
          · intro j' hj t ht
            rw [List.get_cons_succ'] at ht
            refine hk4 j' ?_ t ht
            simpa using hj
    · have hstep : detectStep v (some (bc, bs)) e = some (bc, bs) := by
        unfold detectStep
        rw [hs0]
        simp [hlt]
      obtain ⟨res, hfold, hcases⟩ := ih bc bs hdef'
      refine ⟨res, by rw [List.foldl_cons, hstep]; exact hfold, ?_⟩
      rcases hcases with ⟨hres, hall⟩ | ⟨hlt2, k, hk1, hk2, hk3, hk4⟩
      · refine Or.inl ⟨hres, ?_⟩
        intro x hx t ht
        rcases List.mem_cons.mp hx with hx | hx
        · subst hx
          rw [hs0] at ht
          rw [← Option.some.inj ht]
          exact not_lt.mp hlt
        · exact hall x hx t ht
      · refine Or.inr ⟨hlt2, k.succ, ?_, ?_, ?_, ?_⟩
        · rw [List.get_cons_succ']
          exact hk1
        · rw [List.get_cons_succ']
          exact hk2
        · intro j
          refine Fin.cases ?_ ?_ j
          · intro t ht
            rw [List.get_cons_zero, hs0] at ht
            rw [← Option.some.inj ht]
            exact le_of_lt (lt_of_le_of_lt (not_lt.mp hlt) hlt2)
          · intro j' t ht
            rw [List.get_cons_succ'] at ht
            exact hk3 j' t ht
        · intro j
          refine Fin.cases ?_ ?_ j
          · intro _ t ht
            rw [List.get_cons_zero, hs0] at ht
            rw [← Option.some.inj ht]
            exact lt_of_le_of_lt (not_lt.mp hlt) hlt2
          · intro j' hj t ht
            rw [List.get_cons_succ'] at ht
            refine hk4 j' ?_ t ht
            simpa using hj

lemma detectChord_first_max (v : Chroma) (L : List (String × Chroma))
    (hne : L ≠ []) (hdef : ∀ e ∈ L, cosineSimilarity v e.2 ≠ none) :
    ∃ k : Fin L.length, ∃ s : ℝ,
      cosineSimilarity v (L.get k).2 = some s ∧
      detectChord v L = some ((L.get k).1) ∧
      (∀ j : Fin L.length, ∀ t : ℝ, cosineSimilarity v (L.get j).2 = some t → t ≤ s) ∧
      (∀ j : Fin L.length, (j : ℕ) < (k : ℕ) → ∀ t : ℝ,
        cosineSimilarity v (L.get j).2 = some t → t < s) := by
  obtain ⟨e, l, rfl⟩ := List.exists_cons_of_ne_nil hne
  obtain ⟨s0, hs0⟩ : ∃ s0, cosineSimilarity v e.2 = some s0 :=
    Option.ne_none_iff_exists'.mp (hdef e (List.mem_cons_self e l))
  have hdef' : ∀ x ∈ l, cosineSimilarity v x.2 ≠ none :=
    fun x hx => hdef x (List.mem_cons_of_mem e hx)
  have hstep : detectStep v none e = some (e.1, s0) := by
    unfold detectStep
    rw [hs0]
  obtain ⟨res, hfold, hcases⟩ := foldl_detectStep_first_max v l e.1 s0 hdef'
  have hchord : detectChord v (e :: l) = some res.1 := by
    unfold detectChord
    rw [List.foldl_cons, hstep, hfold]
    rfl
  rcases hcases with ⟨hres, hall⟩ | ⟨hlt2, k, hk1, hk2, hk3, hk4⟩
  · subst hres
    refine ⟨⟨0, by simp⟩, s0, hs0, hchord, ?_, ?_⟩
    · intro j
      refine Fin.cases ?_ ?_ j
      · intro t ht
        rw [List.get_cons_zero, hs0] at ht
        exact le_of_eq (Option.some.inj ht).symm
      · intro j' t ht
        rw [List.get_cons_succ'] at ht
        exact hall (l.get j') (List.get_mem l j' j'.isLt) t ht
    · intro j hj t _
      exact absurd hj (by simp)
  · refine ⟨k.succ, res.2, ?_, ?_, ?_, ?_⟩
    · rw [List.get_cons_succ']
      exact hk2
    · rw [List.get_cons_succ', ← hk1]
      exact hchord
    · intro j
      refine Fin.cases ?_ ?_ j
      · intro t ht
        rw [List.get_cons_zero, hs0] at ht
        rw [← Option.some.inj ht]
        exact le_of_lt hlt2
      · intro j' t ht
        rw [List.get_cons_succ'] at ht
        exact hk3 j' t ht
    · intro j
      refine Fin.cases ?_ ?_ j
      · intro _ t ht
        rw [List.get_cons_zero, hs0] at ht
        rw [← Option.some.inj ht]
        exact hlt2
      · intro j' hj t ht
        rw [List.get_cons_succ'] at ht
        refine hk4 j' ?_ t ht
        simpa using hj

lemma chordTemplates_dot_ne : ∀ e ∈ chordTemplates, dotProd e.2 e.2 ≠ 0 := by
  with_unfolding_all decide

lemma chordTemplates_ne_nil : chordTemplates ≠ [] := by
  with_unfolding_all decide

lemma cmaj_dot_ne :
    dotProd (generateChordTemplate 0 [0, 4, 7]) (generateChordTemplate 0 [0, 4, 7]) ≠ 0 := by
  with_unfolding_all decide

lemma chordTemplates_cons :
    chordTemplates
      = ("C:maj", generateChordTemplate 0 [0, 4, 7]) :: chordTemplates.tail := by
  with_unfolding_all decide

/-- Claim C5: whenever the input vector has a nonzero norm (so every score
against the 60 templates is a defined real), `detectChord` returns the label of
a template whose cosine similarity is maximal, and every template appearing
strictly earlier in the library's iteration order scores strictly lower (ties
go to the first-encountered template); in particular on an input equal to the
"C:maj" template it returns "C:maj", whose self-similarity is exactly 1. -/
theorem claim_C5_detect_chord_argmax :
    (∀ v : Chroma, dotProd v v ≠ 0 →
      ∃ k : Fin chordTemplates.length, ∃ s : ℝ,
        cosineSimilarity v (chordTemplates.get k).2 = some s ∧
        detectChord v chordTemplates = some ((chordTemplates.get k).1) ∧
        (∀ j : Fin chordTemplates.length, ∀ t : ℝ,
          cosineSimilarity v (chordTemplates.get j).2 = some t → t ≤ s) ∧
        (∀ j : Fin chordTemplates.length, (j : ℕ) < (k : ℕ) → ∀ t : ℝ,
          cosineSimilarity v (chordTemplates.get j).2 = some t → t < s)) ∧
    detectChord (generateChordTemplate 0 [0, 4, 7]) chordTemplates = some "C:maj" ∧
    cosineSimilarity (generateChordTemplate 0 [0, 4, 7]) (generateChordTemplate 0 [0, 4, 7])
      = some 1 := by
  refine ⟨?_, ?_, cosineSimilarity_self _ cmaj_dot_ne⟩
  · intro v hv
    refine detectChord_first_max v chordTemplates chordTemplates_ne_nil ?_
    intro e he
    rw [cosineSimilarity_defined v e.2 hv (chordTemplates_dot_ne e he)]
    simp
  · have hstep : detectStep (generateChordTemplate 0 [0, 4, 7]) none
        ("C:maj", generateChordTemplate 0 [0, 4, 7]) = some ("C:maj", 1) := by
      unfold detectStep
      rw [show cosineSimilarity (generateChordTemplate 0 [0, 4, 7])
          (("C:maj", generateChordTemplate 0 [0, 4, 7])).2 = some 1 from
        cosineSimilarity_self _ cmaj_dot_ne]
    unfold detectChord
    rw [chordTemplates_cons, List.foldl_cons, hstep,
      foldl_detectStep_keep (generateChordTemplate 0 [0, 4, 7]) chordTemplates.tail
        "C:maj" 1 le_rfl]
    rfl

end LiveChord
